import Mathlib

/-!
# Verification of the directional-fibers solver pipeline

A shallow embedding of `dfibers/solvers.py` (the fixed-point extraction,
within-fiber refinement and solver facade) together with spec-modelled
stand-ins for the repository modules that are referenced but not present
under `src/` (`traversal.traverse_fiber`, `fixed_points.is_fixed`,
`fixed_points.get_unique_points`).

Vectors and matrix columns are modelled as `List ℚ`; an augmented point
`x = [v; alpha]` is a list of length `N+1` whose last entry is `alpha`.
-/

namespace DFibers

/-- `np.sign` on rationals: `-1`, `0`, or `1`. -/
def npSign (q : ℚ) : ℚ :=
  if q < 0 then -1 else if 0 < q then 1 else 0

/-- Last entry of a column vector (`x[-1,0]` in numpy), with default `0`
for the empty list. -/
def lastD (x : List ℚ) : ℚ := x.getD (x.length - 1) 0

/-- `v`-component of an augmented point: `x[:-1,:]`, the alpha coordinate
stripped. -/
def vComponent (x : List ℚ) : List ℚ := x.dropLast

/-! ## Candidate mask computation (solvers.py lines 131-141)

The mask is built in stages exactly as in the source: start all-false,
mark the endpoints, OR in the sign changes, OR in the local minima of
`|alpha|` (when enabled), then run the two neighbor-expansion passes. -/

/-- `fixed_index = np.zeros(len(a), dtype=bool)`. -/
def initFixedIndex (M : ℕ) : List Bool := List.replicate M false

/-- `fixed_index[[0, -1]] = True`. -/
def markEndpoints (m : List Bool) : List Bool :=
  (m.set 0 true).set (m.length - 1) true

/-- `fixed_index[:-1] |= np.sign(a[:-1]) != np.sign(a[1:])`:
index `i <= M-2` is ORed with the sign-change test between `a[i]` and
`a[i+1]`. -/
def markSignChanges (a : List ℚ) (m : List Bool) : List Bool :=
  List.ofFn fun i : Fin m.length =>
    m.get i ||
      (decide (i.val + 1 < a.length) &&
        decide (npSign (a.getD i.val 0) ≠ npSign (a.getD (i.val + 1) 0)))

/-- `fixed_index[1:-1] |= (fabs(a[1:-1]) <= fabs(a[2:])) & (fabs(a[1:-1]) <= fabs(a[:-2]))`:
interior index `1 <= i <= M-2` is ORed with the local-minimum test. -/
def markLocalMin (a : List ℚ) (m : List Bool) : List Bool :=
  List.ofFn fun i : Fin m.length =>
    m.get i ||
      (decide (1 ≤ i.val) && decide (i.val + 1 < a.length) &&
        decide (|a.getD i.val 0| ≤ |a.getD (i.val + 1) 0|) &&
        decide (|a.getD i.val 0| ≤ |a.getD (i.val - 1) 0|))

/-- The mask before neighbor expansion: endpoints, sign changes, and
(when `localAbsMin` is set) local minima of `|alpha|`. -/
def preExpandMask (localAbsMin : Bool) (a : List ℚ) : List Bool :=
  let m := markSignChanges a (markEndpoints (initFixedIndex a.length))
  if localAbsMin then markLocalMin a m else m

/-- First expansion pass,
`fixed_index[:-1] = np.logical_or(fixed_index[:-1], fixed_index[1:])`:
the right-hand side is computed from the old mask, so
`m1[i] = m[i] || m[i+1]` for `i <= M-2` and `m1[M-1] = m[M-1]`. -/
def passA (m : List Bool) : List Bool :=
  List.ofFn fun i : Fin m.length => m.get i || m.getD (i.val + 1) false

/-- Second expansion pass,
`fixed_index[1:] = np.logical_or(fixed_index[1:], fixed_index[:-1])`:
`m2[i] = m1[i] || m1[i-1]` for `i >= 1` and `m2[0] = m1[0]`. -/
def passB (m : List Bool) : List Bool :=
  List.ofFn fun i : Fin m.length =>
    m.get i || (match i.val with | 0 => false | k + 1 => m.getD k false)

/-- The two sequential expansion passes of the source. -/
def expandMask (m : List Bool) : List Bool := passB (passA m)

/-- One-neighbor dilation, written from the spec's words: index `i` is
marked iff `m` marks `i-1`, `i`, or `i+1` (those that exist). -/
def dilateMask (m : List Bool) : List Bool :=
  List.ofFn fun i : Fin m.length =>
    (match i.val with | 0 => false | k + 1 => m.getD k false) ||
      m.get i || m.getD (i.val + 1) false

/-- The full mask computation of `fiber_solver`. -/
def extractMask (localAbsMin : Bool) (a : List ℚ) : List Bool :=
  expandMask (preExpandMask localAbsMin a)

/-! ### Helper lemmas -/

theorem ofFn_getD {α : Type} {n : ℕ} (f : Fin n → α) (i : ℕ) (d : α) :
    (List.ofFn f).getD i d = if h : i < n then f ⟨i, h⟩ else d := by
  rcases Nat.lt_or_ge i n with h | h
  · rw [List.getD_eq_getElem?_getD, List.getElem?_ofFn]
    simp [List.ofFnNthVal, h]
  · rw [List.getD_eq_getElem?_getD, List.getElem?_ofFn]
    simp [List.ofFnNthVal, Nat.not_lt_of_ge h]

theorem getD_within {α : Type} (l : List α) (i : ℕ) (h : i < l.length) (d : α) :
    l.getD i d = l.get ⟨i, h⟩ := by
  rw [List.getD_eq_getElem?_getD, List.getElem?_eq_getElem h]
  rfl

example : npSign 0 = 0 := by norm_num [npSign]
example : npSign (-3) = -1 := by norm_num [npSign]

theorem length_passA (m : List Bool) : (passA m).length = m.length := by
  simp [passA]

theorem length_passB (m : List Bool) : (passB m).length = m.length := by
  simp [passB]

theorem passA_getD (m : List Bool) (i : ℕ) (h : i < m.length) :
    (passA m).getD i false = (m.getD i false || m.getD (i + 1) false) := by
  rw [passA, ofFn_getD, dif_pos h, getD_within m i h]

theorem passB_getD_zero (m : List Bool) (h : 0 < m.length) :
    (passB m).getD 0 false = m.getD 0 false := by
  rw [passB, ofFn_getD, dif_pos h, getD_within m 0 h]
  show (m.get ⟨0, h⟩ || false) = m.get ⟨0, h⟩
  cases m.get ⟨0, h⟩ <;> rfl

theorem passB_getD_succ (m : List Bool) (k : ℕ) (h : k + 1 < m.length) :
    (passB m).getD (k + 1) false = (m.getD (k + 1) false || m.getD k false) := by
  rw [passB, ofFn_getD, dif_pos h, getD_within m (k + 1) h]

theorem dilateMask_getD_zero (m : List Bool) (h : 0 < m.length) :
    (dilateMask m).getD 0 false = (m.getD 0 false || m.getD 1 false) := by
  rw [dilateMask, ofFn_getD, dif_pos h, getD_within m 0 h]
  show (false || m.get ⟨0, h⟩ || m.getD 1 false) = (m.get ⟨0, h⟩ || m.getD 1 false)
  cases m.get ⟨0, h⟩ <;> rfl

theorem dilateMask_getD_succ (m : List Bool) (k : ℕ) (h : k + 1 < m.length) :
    (dilateMask m).getD (k + 1) false =
      (m.getD k false || m.getD (k + 1) false || m.getD (k + 2) false) := by
  rw [dilateMask, ofFn_getD, dif_pos h, getD_within m (k + 1) h]

theorem expandMask_getD (m : List Bool) (i : ℕ) (h : i < m.length) :
    (expandMask m).getD i false = (dilateMask m).getD i false := by
  have hA : i < (passA m).length := by rwa [length_passA]
  match i with
  | 0 =>
    rw [expandMask, passB_getD_zero (passA m) hA, dilateMask_getD_zero m h,
      passA_getD m 0 h]
  | k + 1 =>
    have hk : k < m.length := Nat.lt_of_succ_lt h
    have hkA : k < (passA m).length := by rwa [length_passA]
    rw [expandMask, passB_getD_succ (passA m) k hA, dilateMask_getD_succ m k h,
      passA_getD m (k + 1) h, passA_getD m k hk]
    cases m.getD k false <;> cases m.getD (k + 1) false <;>
      cases m.getD (k + 2) false <;> rfl

theorem set_getD {α : Type} (l : List α) (j i : ℕ) (v d : α) :
    (l.set j v).getD i d = if j = i ∧ j < l.length then v else l.getD i d := by
  rw [List.getD_eq_getElem?_getD, List.getElem?_set, List.getD_eq_getElem?_getD]
  by_cases h1 : j = i
  · subst h1
    by_cases h2 : j < l.length
    · simp [h2]
    · have : l[j]? = none := by
        rw [List.getElem?_eq_none]
        omega
      simp [h2, this]
  · simp [h1]

theorem length_markEndpoints (m : List Bool) : (markEndpoints m).length = m.length := by
  simp [markEndpoints]

theorem length_markSignChanges (a : List ℚ) (m : List Bool) :
    (markSignChanges a m).length = m.length := by
  simp [markSignChanges]

theorem length_markLocalMin (a : List ℚ) (m : List Bool) :
    (markLocalMin a m).length = m.length := by
  simp [markLocalMin]

theorem length_preExpandMask (lam : Bool) (a : List ℚ) :
    (preExpandMask lam a).length = a.length := by
  cases lam <;>
    simp [preExpandMask, length_markLocalMin, length_markSignChanges,
      length_markEndpoints, initFixedIndex]

theorem markEndpoints_init_getD (M i : ℕ) (h : i < M) :
    (markEndpoints (initFixedIndex M)).getD i false =
      (decide (i = 0) || decide (i = M - 1)) := by
  unfold markEndpoints initFixedIndex
  rw [set_getD, set_getD]
  have hM : 0 < M := by omega
  have hrep : (List.replicate M false).getD i false = false := by
    rw [List.getD_eq_getElem?_getD, List.getElem?_replicate]
    simp [h]
  by_cases h0 : i = 0 <;> by_cases hl : i = M - 1 <;>
    simp_all [List.length_set, List.length_replicate] <;> omega

theorem markSignChanges_getD (a : List ℚ) (m : List Bool) (i : ℕ) (h : i < m.length) :
    (markSignChanges a m).getD i false =
      (m.getD i false ||
        (decide (i + 1 < a.length) &&
          decide (npSign (a.getD i 0) ≠ npSign (a.getD (i + 1) 0)))) := by
  rw [markSignChanges, ofFn_getD, dif_pos h, getD_within m i h]

theorem markLocalMin_getD (a : List ℚ) (m : List Bool) (i : ℕ) (h : i < m.length) :
    (markLocalMin a m).getD i false =
      (m.getD i false ||
        (decide (1 ≤ i) && decide (i + 1 < a.length) &&
          decide (|a.getD i 0| ≤ |a.getD (i + 1) 0|) &&
          decide (|a.getD i 0| ≤ |a.getD (i - 1) 0|))) := by
  rw [markLocalMin, ofFn_getD, dif_pos h, getD_within m i h]

/-- **C2.** For a traced alpha sequence `a` with at least two entries, the
extractor's mask before neighbor expansion marks exactly: both endpoints
`0` and `M-1`; every `i` with `i+1 < M` (i.e. `i` in `0..M-2`) whose sign
differs from its successor's; and, when local-minimum extraction is
enabled, every interior `i` (`1 <= i`, `i+1 < M`, i.e. `i` in `1..M-2`)
with `|a[i]| <= |a[i+1]|` and `|a[i]| <= |a[i-1]|`. -/
theorem preExpandMask_marks_iff (lam : Bool) (a : List ℚ) (hM : 2 ≤ a.length)
    (i : ℕ) (hi : i < a.length) :
    ((preExpandMask lam a).getD i false = true ↔
      (i = 0 ∨ i = a.length - 1 ∨
        (i + 1 < a.length ∧ npSign (a.getD i 0) ≠ npSign (a.getD (i + 1) 0)) ∨
        (lam = true ∧ 1 ≤ i ∧ i + 1 < a.length ∧
          |a.getD i 0| ≤ |a.getD (i + 1) 0| ∧ |a.getD i 0| ≤ |a.getD (i - 1) 0|))) := by
  have hsc : i < (markEndpoints (initFixedIndex a.length)).length := by
    simpa [length_markEndpoints, initFixedIndex] using hi
  have hbase :
      (markSignChanges a (markEndpoints (initFixedIndex a.length))).getD i false =
        ((decide (i = 0) || decide (i = a.length - 1)) ||
          (decide (i + 1 < a.length) &&
            decide (npSign (a.getD i 0) ≠ npSign (a.getD (i + 1) 0)))) := by
    rw [markSignChanges_getD a _ i hsc, markEndpoints_init_getD a.length i hi]
  cases lam
  · show ((markSignChanges a (markEndpoints (initFixedIndex a.length))).getD i false = true ↔ _)
    rw [hbase]
    simp only [Bool.or_eq_true, Bool.and_eq_true, decide_eq_true_eq]
    tauto
  · have hlm : i < (markSignChanges a (markEndpoints (initFixedIndex a.length))).length := by
      simpa [length_markSignChanges] using hsc
    show ((markLocalMin a _).getD i false = true ↔ _)
    rw [markLocalMin_getD a _ i hlm, hbase]
    simp only [Bool.or_eq_true, Bool.and_eq_true, decide_eq_true_eq]
    tauto

/-- Witness for `preExpandMask_marks_iff` at `a = [1, -1, 2]`, `i = 1`:
index 1 is a sign change away from index 0 being its left neighbor, and
the mask marks it. -/
theorem preExpandMask_marks_iff_witness :
    (preExpandMask true [(1 : ℚ), -1, 2]).getD 1 false = true := by
  have h := preExpandMask_marks_iff true [(1 : ℚ), -1, 2] (by norm_num) 1 (by norm_num)
  rw [h]
  right; right; left
  constructor
  · norm_num
  · norm_num [npSign]

/-- **C3.** The extractor's two sequential redundancy-expansion passes over
the mask (`fixed_index[:-1] = or(fixed_index[:-1], fixed_index[1:])`
followed by `fixed_index[1:] = or(fixed_index[1:], fixed_index[:-1])`) are
equivalent to a one-neighbor dilation: the final mask marks index `i` iff
the pre-expansion mask marks `i-1`, `i`, or `i+1` (those that exist). -/
theorem expandMask_eq_dilateMask (m : List Bool) : expandMask m = dilateMask m := by
  have hlen : (expandMask m).length = (dilateMask m).length := by
    simp [expandMask, passA, passB, dilateMask]
  apply List.ext_getElem hlen
  intro i h1 h2
  have hm : i < m.length := by
    simpa [expandMask, passA, passB] using h1
  have := expandMask_getD m i hm
  rwa [getD_within _ i h1, getD_within _ i h2, List.get_eq_getElem,
    List.get_eq_getElem] at this

/-! ## Within-fiber Newton-Raphson step amount (solvers.py lines 144-150)

`compute_refine_step_amount` computes `refine_step_amount = -x[-1,0]/z[-1,0]`
with no guard on the denominator, queries the caller's fiber controller for
`fiber_step_amount`, and returns
`np.sign(refine_step_amount) * min(np.fabs(refine_step_amount), fiber_step_amount)`
(note: `fiber_step_amount` enters the `min` as a signed value, not through
`fabs`). Python float division by zero yields a non-finite value; the
embedding makes the unguarded case explicit by returning `none` there. -/

/-- The step amount returned by `compute_refine_step_amount`, as a function
of the last coordinate of the current point, the last coordinate of the
current tangent, and the caller controller's returned step. `none` models
the non-finite result of the unguarded division when `zLast = 0`. -/
def computeRefineStepAmount (xLast zLast fiberStep : ℚ) : Option ℚ :=
  if zLast = 0 then none
  else some (npSign (-xLast / zLast) * min |(-xLast / zLast)| fiberStep)

/-- **C1 counterexample.** At `x[-1,0] = -1`, `z[-1,0] = 1` (Newton step
`1`) and fiber controller step `-2`, the code returns `-2`, while the
claimed value `sign(1) * min(|1|, |-2|)` is `1`. The claim fails because
the source applies `min` to the signed fiber step, not to its
magnitude. -/
theorem computeRefineStepAmount_cex :
    computeRefineStepAmount (-1) 1 (-2) = some (-2) ∧
      npSign (-(-1 : ℚ) / 1) * min |(-(-1 : ℚ) / 1)| |(-2 : ℚ)| = 1 ∧
      ((-2 : ℚ) ≠ 1) := by
  refine ⟨?_, ?_, by norm_num⟩
  · rw [computeRefineStepAmount]
    norm_num [npSign]
  · norm_num [npSign]

/-- **C1 amended.** Whenever the tangent's last coordinate is nonzero and
the caller's fiber controller returns a nonnegative step, the refine step
equals `sign(r) * min(|r|, |fiberStep|)` for the Newton step
`r = -x[-1,0]/z[-1,0]` — sign from the Newton step, magnitude the smaller
of the two magnitudes — and its magnitude never exceeds the fiber
controller's step magnitude. (The unamended claim fails when the fiber
controller returns a negative step, which the source feeds into `min` as a
signed value.) -/
theorem computeRefineStepAmount_correct (xLast zLast fiberStep : ℚ)
    (hz : zLast ≠ 0) (hfs : 0 ≤ fiberStep) :
    computeRefineStepAmount xLast zLast fiberStep =
        some (npSign (-xLast / zLast) * min |(-xLast / zLast)| |fiberStep|) ∧
      abs (npSign (-xLast / zLast) * min |(-xLast / zLast)| |fiberStep|) ≤ |fiberStep| := by
  constructor
  · rw [computeRefineStepAmount, if_neg hz, abs_of_nonneg hfs]
  · rw [abs_mul]
    have h1 : |npSign (-xLast / zLast)| ≤ 1 := by
      unfold npSign
      split
      · norm_num
      · split <;> norm_num
    have hmin : (0 : ℚ) ≤ min |(-xLast / zLast)| |fiberStep| :=
      le_min (abs_nonneg _) (abs_nonneg _)
    have h2 : abs (min |(-xLast / zLast)| |fiberStep|) ≤ |fiberStep| := by
      rw [abs_of_nonneg hmin]
      exact min_le_right _ _
    calc |npSign (-xLast / zLast)| * abs (min |(-xLast / zLast)| |fiberStep|)
        ≤ 1 * abs (min |(-xLast / zLast)| |fiberStep|) :=
          mul_le_mul_of_nonneg_right h1 (abs_nonneg _)
      _ = abs (min |(-xLast / zLast)| |fiberStep|) := one_mul _
      _ ≤ |fiberStep| := h2

/-- Witness for `computeRefineStepAmount_correct` at `xLast = -1`,
`zLast = 1`, `fiberStep = 2`. -/
theorem computeRefineStepAmount_correct_witness :
    computeRefineStepAmount (-1) 1 2 =
        some (npSign (-(-1 : ℚ) / 1) * min |(-(-1 : ℚ) / 1)| |(2 : ℚ)|) ∧
      abs (npSign (-(-1 : ℚ) / 1) * min |(-(-1 : ℚ) / 1)| |(2 : ℚ)|) ≤ |(2 : ℚ)| :=
  computeRefineStepAmount_correct (-1) 1 2 (by norm_num) (by norm_num)

/-- **C8.** The refine controller's Newton step `-x[-1,0]/z[-1,0]` is
computed with no guard on the denominator: when the tangent's last
coordinate is nonzero the returned step exists (is a finite rational), and
when it is zero the division is unguarded and no finite step is returned —
the finite-signed-step contract holds only under the precondition
`z[-1,0] != 0`. -/
theorem computeRefineStepAmount_guard (xLast zLast fiberStep : ℚ) :
    (zLast = 0 → computeRefineStepAmount xLast zLast fiberStep = none) ∧
      (zLast ≠ 0 → ∃ s : ℚ, computeRefineStepAmount xLast zLast fiberStep = some s) := by
  constructor
  · intro h
    rw [computeRefineStepAmount, if_pos h]
  · intro h
    exact ⟨_, by rw [computeRefineStepAmount, if_neg h]⟩

/-- Witness for `computeRefineStepAmount_guard`: the zero-denominator case
at `(1, 0, 5)` and the nonzero case at `(1, 2, 5)`. -/
theorem computeRefineStepAmount_guard_witness :
    computeRefineStepAmount 1 0 5 = none ∧
      ∃ s : ℚ, computeRefineStepAmount 1 2 5 = some s :=
  ⟨(computeRefineStepAmount_guard 1 0 5).1 rfl,
    (computeRefineStepAmount_guard 1 2 5).2 (by norm_num)⟩

/-! ## Fiber traces and the tracer interface

`traversal.traverse_fiber` is referenced by `solvers.py` but its module is
not under `src/`; the solver facade is therefore embedded relative to an
arbitrary tracer implementation, passed in as a function from the call's
arguments to the resulting trace. -/

/-- Modelled from the spec: the FiberTrace data model (§3) of the missing
`traversal` module — the ordered sequence of augmented points visited, the
fixed direction `c`, the last tangent `z`, and the current point `x`
(`trace.x`, consumed by step-size controllers and termination
predicates). -/
structure FiberTrace where
  points : List (List ℚ)
  c : List ℚ
  z : List ℚ
  x : List ℚ

/-- Modelled from the spec: the argument record of a `traverse_fiber` call
(§4.1), for the missing `traversal` module. `δ` is the opaque per-step
diagnostic payload type of the step-size controller; `none` from the
controller models a non-finite step amount. -/
structure TraverseCall (δ : Type) where
  f : List ℚ → List ℚ
  Df : List ℚ → List (List ℚ)
  ef : List ℚ → List ℚ
  computeStepAmount : FiberTrace → Option (ℚ × δ)
  v : Option (List ℚ)
  c : Option (List ℚ)
  z : Option (List ℚ)
  terminate : Option (FiberTrace → Bool)
  maxTraverseSteps : Option ℕ
  maxStepSize : Option ℚ
  maxSolveIterations : Option ℕ

/-- Modelled from the spec: `fixed_points.is_fixed` (module not under
`src/`), the element-wise fixed-point acceptance test of §4.4: `v` is
accepted iff `|f(v)| <= ef(v)` element-wise. -/
def isFixed (f ef : List ℚ → List ℚ) (v : List ℚ) : Bool :=
  ((f v).zip (ef v)).all fun p => decide (|p.1| ≤ p.2)

/-- The full refine controller closure `compute_refine_step_amount` of
`fiber_solver`: the scalar step from `computeRefineStepAmount` paired with
the step data tuple `(refine_step_amount, fiber_step_amount,
fiber_step_data)`. -/
def computeRefineStep {δ : Type} (computeStepAmount : FiberTrace → ℚ × δ)
    (trace : FiberTrace) : Option (ℚ × (ℚ × ℚ × δ)) :=
  let fiber := computeStepAmount trace
  (computeRefineStepAmount (lastD trace.x) (lastD trace.z) fiber.1).map
    fun amt => (amt, (-(lastD trace.x) / lastD trace.z, fiber.1, fiber.2))

/-- `X[:, fixed_index]`: the columns of `X` at the marked indices. -/
def selectColumns (X : List (List ℚ)) (mask : List Bool) : List (List ℚ) :=
  (X.zip mask).filterMap fun p => if p.2 then some p.1 else none

/-- `np.flatnonzero(mask)`: indices of the true entries, in increasing
order. -/
def flatnonzero (mask : List Bool) : List ℕ :=
  (List.range mask.length).filter fun i => mask.getD i false

/-- `points[-1]` of a refinement trace, with default `[]`. -/
def lastPoint (points : List (List ℚ)) : List ℚ :=
  points.getLast?.getD []

/-- The result dictionary of `fiber_solver`. -/
structure FiberSolution where
  fiberTrace : FiberTrace
  fixedPoints : List (List ℚ)
  refinements : List FiberTrace
  fixedIndex : List ℕ

/-- The main `traverse_fiber` call issued by `fiber_solver` (solvers.py
lines 106-121), with the caller's step-size controller wrapped into the
tracer's `Option`-valued controller type. -/
def mainCall {δ : Type} (f ef : List ℚ → List ℚ) (Df : List ℚ → List (List ℚ))
    (computeStepAmount : FiberTrace → ℚ × δ) (v c z : Option (List ℚ))
    (terminate : Option (FiberTrace → Bool)) (maxTraverseSteps : Option ℕ)
    (maxStepSize : Option ℚ) (maxSolveIterations : Option ℕ) : TraverseCall δ :=
  { f := f, Df := Df, ef := ef,
    computeStepAmount := fun tr => some (computeStepAmount tr),
    v := v, c := c, z := z, terminate := terminate,
    maxTraverseSteps := maxTraverseSteps, maxStepSize := maxStepSize,
    maxSolveIterations := maxSolveIterations }

/-- The refinement termination predicate built by `fiber_solver`
(solvers.py lines 151-152): fires as soon as the current point passes the
fixed-point acceptance test, or the caller's own predicate (defaulted to
always-false when absent) fires. -/
def refineTerminate (f ef : List ℚ → List ℚ)
    (terminate : Option (FiberTrace → Bool)) (trace : FiberTrace) : Bool :=
  isFixed f ef (vComponent trace.x) || (terminate.getD fun _ => false) trace

/-- The per-candidate refinement `traverse_fiber` call issued by
`fiber_solver` (solvers.py lines 164-177): seeded at the candidate,
reusing the original trace's direction `c`, with the within-fiber
Newton-Raphson controller, the refinement termination predicate, and a
step budget of `2^5 = 32`. -/
def refineCall {δ : Type} (f ef : List ℚ → List ℚ) (Df : List ℚ → List (List ℚ))
    (computeStepAmount : FiberTrace → ℚ × δ) (c : List ℚ)
    (terminate : Option (FiberTrace → Bool)) (maxStepSize : Option ℚ)
    (maxSolveIterations : Option ℕ) (candidate : List ℚ) :
    TraverseCall (ℚ × ℚ × δ) :=
  { f := f, Df := Df, ef := ef,
    computeStepAmount := computeRefineStep computeStepAmount,
    v := some candidate, c := some c, z := none,
    terminate := some (refineTerminate f ef terminate),
    maxTraverseSteps := some 32, maxStepSize := maxStepSize,
    maxSolveIterations := maxSolveIterations }

/-- Shallow embedding of `fiber_solver` (solvers.py lines 75-191),
relative to a tracer implementation `traverse`. The Python loop over
candidate columns, which appends one refinement result and one fixed-point
column per iteration, is modelled as maps over the selected columns. -/
def fiberSolver {δ : Type} (traverse : (δ' : Type) → TraverseCall δ' → FiberTrace)
    (f ef : List ℚ → List ℚ) (Df : List ℚ → List (List ℚ))
    (computeStepAmount : FiberTrace → ℚ × δ) (v c z : Option (List ℚ))
    (terminate : Option (FiberTrace → Bool)) (maxTraverseSteps : Option ℕ)
    (maxStepSize : Option ℚ) (maxSolveIterations : Option ℕ)
    (localAbsMin withinFiber : Bool) : FiberSolution :=
  let fiberResult := traverse δ (mainCall f ef Df computeStepAmount v c z
    terminate maxTraverseSteps maxStepSize maxSolveIterations)
  let c' := fiberResult.c
  let X := fiberResult.points
  let a := X.map lastD
  let fixedIndex := extractMask localAbsMin a
  let Xsel := selectColumns X fixedIndex
  let refinements :=
    if withinFiber then
      Xsel.map fun col =>
        traverse (ℚ × ℚ × δ) (refineCall f ef Df computeStepAmount c'
          terminate maxStepSize maxSolveIterations (vComponent col))
    else []
  let fixedPoints :=
    if withinFiber then
      refinements.map fun r => vComponent (lastPoint r.points)
    else Xsel.map vComponent
  { fiberTrace := fiberResult, fixedPoints := fixedPoints,
    refinements := refinements, fixedIndex := flatnonzero fixedIndex }

theorem length_expandMask (m : List Bool) : (expandMask m).length = m.length := by
  rw [expandMask, length_passB, length_passA]

theorem length_extractMask (lam : Bool) (a : List ℚ) :
    (extractMask lam a).length = a.length := by
  rw [extractMask, length_expandMask, length_preExpandMask]

theorem flatnonzero_cons (b : Bool) (ms : List Bool) :
    flatnonzero (b :: ms) =
      (if b then [0] else []) ++ (flatnonzero ms).map (· + 1) := by
  unfold flatnonzero
  rw [List.length_cons, List.range_succ_eq_map, List.filter_cons, List.filter_map]
  have h0 : (b :: ms).getD 0 false = b := rfl
  have hcmp : ((fun i => (b :: ms).getD i false) ∘ Nat.succ) =
      fun i => ms.getD i false := rfl
  rw [hcmp]
  cases b <;> simp [h0]

theorem selectColumns_cons (x : List ℚ) (X : List (List ℚ)) (b : Bool)
    (ms : List Bool) :
    selectColumns (x :: X) (b :: ms) =
      (if b then [x] else []) ++ selectColumns X ms := by
  unfold selectColumns
  rw [List.zip_cons_cons, List.filterMap_cons]
  cases b <;> simp

theorem selectColumns_eq (X : List (List ℚ)) (mask : List Bool)
    (h : X.length = mask.length) :
    selectColumns X mask = (flatnonzero mask).map fun i => X.getD i [] := by
  induction mask generalizing X with
  | nil =>
    cases X with
    | nil => rfl
    | cons x xs => simp at h
  | cons b ms ih =>
    cases X with
    | nil => simp at h
    | cons x xs =>
      have h' : xs.length = ms.length := by simpa using h
      rw [selectColumns_cons, flatnonzero_cons, List.map_append, List.map_map,
        ih xs h']
      have hcmp : ((fun i => (x :: xs).getD i []) ∘ (· + 1)) =
          fun i => xs.getD i [] := rfl
      rw [hcmp]
      cases b <;> rfl

theorem flatnonzero_pairwise (mask : List Bool) :
    (flatnonzero mask).Pairwise (· < ·) :=
  List.Pairwise.sublist (List.filter_sublist _) (List.pairwise_lt_range _)

theorem flatnonzero_mem (mask : List Bool) (i : ℕ) :
    i ∈ flatnonzero mask ↔ (i < mask.length ∧ mask.getD i false = true) := by
  simp [flatnonzero, List.mem_filter, List.mem_range]

/-- **C4.** With within-fiber refinement enabled, `fiber_solver` refines
every extracted candidate by re-invoking the tracer seeded at the
candidate's `v`-component (`v := candidate`), with the direction `c`
returned by the original trace (`c := fiber_result.c`, reused even when it
was the random default), the within-fiber Newton-Raphson controller, a
step budget of `2^5 = 32` steps, and a termination predicate that fires as
soon as the current point passes the element-wise acceptance test
`|f(v)| <= ef(v)` or the caller's own predicate (defaulting to
always-false) fires. -/
theorem fiberSolver_refinement_invocations {δ : Type}
    (traverse : (δ' : Type) → TraverseCall δ' → FiberTrace)
    (f ef : List ℚ → List ℚ) (Df : List ℚ → List (List ℚ))
    (computeStepAmount : FiberTrace → ℚ × δ) (v c z : Option (List ℚ))
    (terminate : Option (FiberTrace → Bool)) (maxTraverseSteps : Option ℕ)
    (maxStepSize : Option ℚ) (maxSolveIterations : Option ℕ) (lam : Bool) :
    (fiberSolver traverse f ef Df computeStepAmount v c z terminate
        maxTraverseSteps maxStepSize maxSolveIterations lam true).refinements =
      (selectColumns
          (traverse δ (mainCall f ef Df computeStepAmount v c z terminate
            maxTraverseSteps maxStepSize maxSolveIterations)).points
          (extractMask lam
            ((traverse δ (mainCall f ef Df computeStepAmount v c z terminate
              maxTraverseSteps maxStepSize maxSolveIterations)).points.map lastD))).map
        fun col =>
          traverse (ℚ × ℚ × δ)
            { f := f, Df := Df, ef := ef,
              computeStepAmount := computeRefineStep computeStepAmount,
              v := some (vComponent col),
              c := some (traverse δ (mainCall f ef Df computeStepAmount v c z
                terminate maxTraverseSteps maxStepSize maxSolveIterations)).c,
              z := none,
              terminate := some fun tr =>
                isFixed f ef (vComponent tr.x) ||
                  (terminate.getD fun _ => false) tr,
              maxTraverseSteps := some 32,
              maxStepSize := maxStepSize,
              maxSolveIterations := maxSolveIterations } :=
  rfl

/-- **C10.** When within-fiber refinement is disabled, `fiber_solver`
performs no refinement: the returned refinement list is empty, and each
fixed-point column equals, unchanged, the `v`-component (alpha stripped)
of the trace point at the corresponding marked index. -/
theorem fiberSolver_within_fiber_false {δ : Type}
    (traverse : (δ' : Type) → TraverseCall δ' → FiberTrace)
    (f ef : List ℚ → List ℚ) (Df : List ℚ → List (List ℚ))
    (computeStepAmount : FiberTrace → ℚ × δ) (v c z : Option (List ℚ))
    (terminate : Option (FiberTrace → Bool)) (maxTraverseSteps : Option ℕ)
    (maxStepSize : Option ℚ) (maxSolveIterations : Option ℕ) (lam : Bool) :
    let sol := fiberSolver traverse f ef Df computeStepAmount v c z terminate
      maxTraverseSteps maxStepSize maxSolveIterations lam false
    sol.refinements = [] ∧
      sol.fixedPoints = sol.fixedIndex.map fun i =>
        vComponent (sol.fiberTrace.points.getD i []) := by
  refine ⟨rfl, ?_⟩
  show (selectColumns _ _).map vComponent = _
  rw [selectColumns_eq _ _ (by rw [length_extractMask, List.length_map]),
    List.map_map]
  rfl

/-! ## C5: shape of the returned fixed-point data -/

/-- A concrete tracer used to instantiate `fiber_solver`: the main trace
(budget unset) visits `[1;1]` then `[2;-1]`; every refinement call (budget
32) ends at `[5;0]`. -/
def cexTraverse : (δ : Type) → TraverseCall δ → FiberTrace := fun _ call =>
  if call.maxTraverseSteps = some 32 then
    { points := [[5, 0]], c := [1], z := [0, 1], x := [5, 0] }
  else
    { points := [[1, 1], [2, -1]], c := [1], z := [0, 1], x := [2, -1] }

/-- A concrete `fiber_solver` run with refinement enabled on the tracer
above. -/
def cexSolution : FiberSolution :=
  fiberSolver cexTraverse (fun w => w) (fun w => w) (fun _ => [])
    (fun _ => ((1 : ℚ), ())) none none none none none none none true true

/-- **C5 counterexample.** In the refinement-enabled run `cexSolution`,
index 0 is marked, but the first returned fixed-point column is the
refined point's `v`-component `[5]`, not the marked trace point's
`v`-component `[1]`: with `within_fiber = True` the columns are the
refined candidates, so they need not equal the marked points'
`v`-components. -/
theorem fiberSolver_column_cex :
    cexSolution.fixedIndex.getD 0 0 = 0 ∧
      cexSolution.fixedPoints.getD 0 [] = [5] ∧
      vComponent (cexSolution.fiberTrace.points.getD 0 []) = [1] ∧
      (([5] : List ℚ) ≠ [1]) := by
  refine ⟨?_, ?_, ?_, by decide⟩ <;> decide

/-- **C5 amended.** For every `fiber_solver` call, the returned
"Fixed index" array lists exactly the marked trace indices in strictly
increasing order, and the returned "Fixed points" array has exactly one
column per marked index, so the two have equal lengths; each column is the
`v`-component (alpha stripped) of the trace point at the corresponding
marked index when within-fiber refinement is disabled, and of the final
point of the corresponding refinement trace when it is enabled. -/
theorem fiberSolver_output_shape {δ : Type}
    (traverse : (δ' : Type) → TraverseCall δ' → FiberTrace)
    (f ef : List ℚ → List ℚ) (Df : List ℚ → List (List ℚ))
    (computeStepAmount : FiberTrace → ℚ × δ) (v c z : Option (List ℚ))
    (terminate : Option (FiberTrace → Bool)) (maxTraverseSteps : Option ℕ)
    (maxStepSize : Option ℚ) (maxSolveIterations : Option ℕ)
    (lam wf : Bool) :
    let sol := fiberSolver traverse f ef Df computeStepAmount v c z terminate
      maxTraverseSteps maxStepSize maxSolveIterations lam wf
    let mask := extractMask lam (sol.fiberTrace.points.map lastD)
    sol.fixedIndex.Pairwise (· < ·) ∧
      (∀ i : ℕ, i ∈ sol.fixedIndex ↔
        (i < sol.fiberTrace.points.length ∧ mask.getD i false = true)) ∧
      sol.fixedPoints.length = sol.fixedIndex.length ∧
      (wf = false → sol.fixedPoints = sol.fixedIndex.map fun i =>
        vComponent (sol.fiberTrace.points.getD i [])) ∧
      (wf = true → sol.fixedPoints = sol.refinements.map fun r =>
        vComponent (lastPoint r.points)) := by
  intro sol mask
  have hlen : sol.fiberTrace.points.length = mask.length := by
    rw [length_extractMask, List.length_map]
  have h4 : wf = false → sol.fixedPoints = sol.fixedIndex.map fun i =>
      vComponent (sol.fiberTrace.points.getD i []) := by
    intro hwf
    subst hwf
    show (selectColumns sol.fiberTrace.points mask).map vComponent = _
    rw [selectColumns_eq _ _ hlen, List.map_map]
    rfl
  have h5 : wf = true → sol.fixedPoints = sol.refinements.map fun r =>
      vComponent (lastPoint r.points) := by
    intro hwf
    subst hwf
    rfl
  have h6 : wf = true → sol.refinements =
      (selectColumns sol.fiberTrace.points mask).map fun col =>
        traverse (ℚ × ℚ × δ) (refineCall f ef Df computeStepAmount
          sol.fiberTrace.c terminate maxStepSize maxSolveIterations
          (vComponent col)) := by
    intro hwf
    subst hwf
    rfl
  refine ⟨flatnonzero_pairwise _, ?_, ?_, h4, h5⟩
  · intro i
    rw [show sol.fixedIndex = flatnonzero mask from rfl, flatnonzero_mem, hlen]
  · rcases Bool.dichotomy wf with hwf | hwf
    · rw [h4 hwf, List.length_map]
    · rw [h5 hwf, h6 hwf, List.length_map, List.length_map,
        selectColumns_eq _ _ hlen, List.length_map]
      rfl

/-- Witness for `fiberSolver_output_shape`, instantiated at the concrete
refinement-disabled run: the inner implications are discharged at
`wf = false`. -/
theorem fiberSolver_output_shape_witness :
    (fiberSolver cexTraverse (fun w => w) (fun w => w) (fun _ => [])
        (fun _ => ((1 : ℚ), ())) none none none none none none none true
        false).fixedPoints =
      (fiberSolver cexTraverse (fun w => w) (fun w => w) (fun _ => [])
        (fun _ => ((1 : ℚ), ())) none none none none none none none true
        false).fixedIndex.map fun i =>
          vComponent ((fiberSolver cexTraverse (fun w => w) (fun w => w)
            (fun _ => []) (fun _ => ((1 : ℚ), ())) none none none none none
            none none true false).fiberTrace.points.getD i []) :=
  (fiberSolver_output_shape cexTraverse (fun w => w) (fun w => w) (fun _ => [])
    (fun _ => ((1 : ℚ), ())) none none none none none none none true
    false).2.2.2.1 rfl

/-! ## C6: the tracer's step budget (spec-modelled)

`traversal.traverse_fiber` is not under `src/`. The step loop is modelled
from the spec (§4.1): after the corrector-only initialization produces the
first point, each loop iteration queries the controller, predicts,
corrects, updates the tangent, appends exactly one point, and checks the
stopping conditions; the maximum-step-count budget ends the loop after at
most `maxTraverseSteps` iterations. The numerical kernels (Newton
corrector, SVD tangent) are abstracted into the `stepFn` parameter, which
produces the next corrected point and tangent. -/

/-- Modelled from the spec: the step loop of `traverse_fiber` (§4.1 step
3), with `k` remaining steps from the budget. Each iteration appends
exactly one corrected point; the caller's `terminate` predicate (checked
once per outer iteration) may end the loop early. -/
def traverseLoop (stepFn : FiberTrace → List ℚ × List ℚ)
    (terminate : FiberTrace → Bool) : ℕ → FiberTrace → FiberTrace
  | 0, tr => tr
  | k + 1, tr =>
    if terminate tr then tr
    else
      let s := stepFn tr
      traverseLoop stepFn terminate k
        { points := tr.points ++ [s.1], c := tr.c, z := s.2, x := s.1 }

/-- Modelled from the spec: `traverse_fiber` with a step budget
`maxTraverseSteps = k` (§4.1): the initialization corrector produces the
single starting point `x0` (not counted against the budget), then the step
loop runs at most `k` iterations. -/
def traverseFiber (stepFn : FiberTrace → List ℚ × List ℚ)
    (terminate : FiberTrace → Bool) (x0 z0 c : List ℚ)
    (maxTraverseSteps : ℕ) : FiberTrace :=
  traverseLoop stepFn terminate maxTraverseSteps
    { points := [x0], c := c, z := z0, x := x0 }

theorem traverseLoop_length (stepFn : FiberTrace → List ℚ × List ℚ)
    (terminate : FiberTrace → Bool) (k : ℕ) (tr : FiberTrace) :
    (traverseLoop stepFn terminate k tr).points.length ≤
      tr.points.length + k := by
  induction k generalizing tr with
  | zero => simp [traverseLoop]
  | succ k ih =>
    rw [traverseLoop]
    by_cases h : terminate tr = true
    · rw [if_pos h]
      omega
    · rw [if_neg h]
      show (traverseLoop stepFn terminate k
        ⟨tr.points ++ [(stepFn tr).1], tr.c, (stepFn tr).2, (stepFn tr).1⟩).points.length ≤
          tr.points.length + (k + 1)
      have := ih ⟨tr.points ++ [(stepFn tr).1], tr.c, (stepFn tr).2, (stepFn tr).1⟩
      simp only [List.length_append, List.length_cons, List.length_nil] at this
      omega

/-- **C6.** Invoking the tracer with `max_traverse_steps = k` produces a
point sequence of length at most `k + 1`: one initial corrected point plus
at most `k` loop steps. -/
theorem traverseFiber_budget (stepFn : FiberTrace → List ℚ × List ℚ)
    (terminate : FiberTrace → Bool) (x0 z0 c : List ℚ) (k : ℕ) :
    (traverseFiber stepFn terminate x0 z0 c k).points.length ≤ k + 1 := by
  have := traverseLoop_length stepFn terminate k
    { points := [x0], c := c, z := z0, x := x0 }
  simpa [Nat.add_comm] using this

/-! ## C9: `local_solver` on an immediately-terminating loop
(solvers.py lines 45-73)

The sampling loop's effectful collaborators are abstracted into oracles
indexed by the repeat counter: `sampler` (the random seed draw),
`randUpdates` (the `np.random.randint(max_updates+1)` draw), `minimize`
(the external scipy optimizer), and `stopTimeReached` (the
`time.clock() >= stop_time` test at the top of iteration `r`). The
unbounded `itertools.count()` loop is run on explicit fuel; every
terminating behavior of the source is reached with enough fuel, and the
claim concerns runs that break before the first sample. -/

/-- `v = v + f(v)` iterated `u` times (element-wise vector addition). -/
def iterateUpdates (f : List ℚ → List ℚ) : ℕ → List ℚ → List ℚ
  | 0, w => w
  | u + 1, w => iterateUpdates f u (w.zipWith (· + ·) (f w))

/-- `np.concatenate(arrays, axis=1)`: raises on an empty list, otherwise
returns the columns. -/
def npConcatenate {α : Type} (arrays : List α) : Except String (List α) :=
  if arrays.isEmpty then .error "need at least one array to concatenate"
  else .ok arrays

/-- The result dictionary of `local_solver`. -/
structure LocalSolverResult where
  seeds : List (List ℚ)
  updates : List ℕ
  optima : List (List ℚ)

/-- The sampling loop of `local_solver`: at repeat `r`, first check the
stop-time criterion, then the max-repeats criterion (in source order);
otherwise draw a seed, iterate it, optimize, and append to the three
accumulators. -/
def localSolverLoop (sampler : ℕ → List ℚ) (f : List ℚ → List ℚ)
    (minimize : List ℚ → List ℚ) (randUpdates : ℕ → ℕ)
    (stopTimeReached : ℕ → Bool) (maxRepeats : Option ℕ) :
    ℕ → ℕ → List (List ℚ) × List ℕ × List (List ℚ) →
      List (List ℚ) × List ℕ × List (List ℚ)
  | 0, _, acc => acc
  | fuel + 1, r, (seeds, updates, optima) =>
    if stopTimeReached r then (seeds, updates, optima)
    else if (maxRepeats.map fun m => decide (m ≤ r)).getD false then
      (seeds, updates, optima)
    else
      let w := sampler r
      let u := randUpdates r
      let w' := iterateUpdates f u w
      let opt := minimize w'
      localSolverLoop sampler f minimize randUpdates stopTimeReached maxRepeats
        fuel (r + 1) (seeds ++ [w], updates ++ [u], optima ++ [opt])

/-- Shallow embedding of `local_solver`: run the sampling loop, then
format the output dictionary — `np.concatenate(seeds, axis=1)` first
(the "Seeds" entry), then `np.concatenate(optima, axis=1)` (the
"Optima" entry); `np.array(updates)` never raises. -/
def localSolver (sampler : ℕ → List ℚ) (f : List ℚ → List ℚ)
    (minimize : List ℚ → List ℚ) (randUpdates : ℕ → ℕ)
    (stopTimeReached : ℕ → Bool) (maxRepeats : Option ℕ) (fuel : ℕ) :
    Except String LocalSolverResult :=
  let acc := localSolverLoop sampler f minimize randUpdates stopTimeReached
    maxRepeats fuel 0 ([], [], [])
  match npConcatenate acc.1, npConcatenate acc.2.2 with
  | .ok s, .ok o => .ok { seeds := s, updates := acc.2.1, optima := o }
  | .error e, _ => .error e
  | .ok _, .error e => .error e

/-- **C9.** If `local_solver`'s termination criteria fire before any
sample is drawn — `max_repeats = 0`, or the stop time already reached at
the first iteration — the function raises (here: returns the
`np.concatenate` error of concatenating an empty list) rather than
returning a result with empty arrays. -/
theorem localSolver_empty_raises (sampler : ℕ → List ℚ) (f : List ℚ → List ℚ)
    (minimize : List ℚ → List ℚ) (randUpdates : ℕ → ℕ)
    (stopTimeReached : ℕ → Bool) (maxRepeats : Option ℕ)
    (h : maxRepeats = some 0 ∨ stopTimeReached 0 = true) (fuel : ℕ) :
    localSolver sampler f minimize randUpdates stopTimeReached maxRepeats
        fuel = .error "need at least one array to concatenate" := by
  have hloop : localSolverLoop sampler f minimize randUpdates stopTimeReached
      maxRepeats fuel 0 ([], [], []) = ([], [], []) := by
    cases fuel with
    | zero => rfl
    | succ fuel =>
      rw [localSolverLoop]
      rcases h with h | h
      · subst h
        by_cases hst : stopTimeReached 0 = true
        · rw [if_pos hst]
        · rw [if_neg hst]
          rw [if_pos (by norm_num)]
      · rw [if_pos h]
  rw [localSolver]
  rw [hloop]
  rfl

/-- Witness for `localSolver_empty_raises` at `max_repeats = 0` with
trivial oracles and fuel 3. -/
theorem localSolver_empty_raises_witness :
    localSolver (fun _ => []) (fun w => w) (fun w => w) (fun _ => 0)
        (fun _ => false) (some 0) 3 =
      .error "need at least one array to concatenate" :=
  localSolver_empty_raises (fun _ => []) (fun w => w) (fun w => w) (fun _ => 0)
    (fun _ => false) (some 0) (Or.inl rfl) 3

/-! ## C7: deduplication idempotence (spec-modelled)

`fixed_points.get_unique_points` is not under `src/`. Modelled from the
spec (§4.4): build the adjacency graph of the caller-supplied equivalence
predicate `E` over the point columns (evaluated in both directions since
`E` is symmetric in documentation only), take connected components
(chains of pairwise adjacency — the transitive closure), and keep one
representative per component, chosen deterministically as the
first-encountered point. Connectivity over a graph with `V.length`
vertices is computed by `V.length` rounds of neighbor expansion. -/

section Dedup

variable {α : Type}

/-- Modelled from the spec: adjacency of §4.4 — indices `i`, `j` of `V`
are adjacent iff `E` holds between the points in either direction;
out-of-range indices are adjacent to nothing. -/
def adjB (E : α → α → Bool) (V : List α) (i j : ℕ) : Bool :=
  match V[i]?, V[j]? with
  | some a, some b => E a b || E b a
  | _, _ => false

/-- One round of neighbor expansion of a reached-index set. -/
def stepSet (E : α → α → Bool) (V : List α) (S : ℕ → Bool) : ℕ → Bool :=
  fun j => S j || (List.range V.length).any fun i => S i && adjB E V i j

/-- Indices of `V` reachable from `i0` by chains of adjacency:
`V.length` expansion rounds exhaust the transitive closure on a graph
with `V.length` vertices. -/
def reachSet (E : α → α → Bool) (V : List α) (i0 : ℕ) : ℕ → Bool :=
  (stepSet E V)^[V.length] fun j => decide (j = i0)

/-- Connectivity: same connected component of the adjacency graph. -/
def connB (E : α → α → Bool) (V : List α) (i j : ℕ) : Bool :=
  reachSet E V i j

/-- Keep index `i` iff no earlier index is connected to it — the
first-encountered representative of each component. -/
def keepIdx (E : α → α → Bool) (V : List α) (i : ℕ) : Bool :=
  (List.range i).all fun j => !connB E V i j

/-- Modelled from the spec: `fixed_points.get_unique_points` (§4.4) —
one representative point per connected component, the first-encountered
one. -/
def getUniquePoints [Inhabited α] (E : α → α → Bool) (V : List α) : List α :=
  ((List.range V.length).filter (keepIdx E V)).map fun i => V.getD i default

theorem map_getD_of_lt (l : List ℕ) (f : ℕ → α) (k : ℕ)
    (h : k < l.length) (d : α) :
    (l.map f).getD k d = f (l.getD k 0) := by
  have hm : k < (l.map f).length := by simpa using h
  rw [getD_within _ k hm, getD_within l k h]
  simp [List.get_eq_getElem]

theorem adjB_bound (E : α → α → Bool) (V : List α) (i j : ℕ)
    (h : adjB E V i j = true) : i < V.length ∧ j < V.length := by
  unfold adjB at h
  rcases hi : V[i]? with _ | a <;> rcases hj : V[j]? with _ | b <;>
    rw [hi, hj] at h
  · exact absurd h (by simp)
  · exact absurd h (by simp)
  · exact absurd h (by simp)
  · have h1 := (List.getElem?_eq_some.mp hi).1
    have h2 := (List.getElem?_eq_some.mp hj).1
    exact ⟨h1, h2⟩

theorem stepSet_le (E : α → α → Bool) (V : List α) (S : ℕ → Bool) (j : ℕ)
    (h : S j = true) : stepSet E V S j = true := by
  unfold stepSet
  rw [h, Bool.true_or]

theorem iterate_stepSet_mono (E : α → α → Bool) (V : List α) (S : ℕ → Bool)
    (m m' : ℕ) (h : m ≤ m') (j : ℕ)
    (hj : ((stepSet E V)^[m] S) j = true) :
    ((stepSet E V)^[m'] S) j = true := by
  induction m' with
  | zero =>
    have : m = 0 := Nat.le_zero.mp h
    subst this
    exact hj
  | succ m' ih =>
    rcases Nat.lt_or_ge m (m' + 1) with hlt | hge
    · have hm : m ≤ m' := Nat.lt_succ_iff.mp hlt
      rw [Function.iterate_succ_apply']
      exact stepSet_le E V _ j (ih hm)
    · have : m = m' + 1 := Nat.le_antisymm h hge
      subst this
      exact hj

theorem adjB_map_eq [Inhabited α] (E : α → α → Bool) (V : List α)
    (idxs : List ℕ) (hmem : ∀ t ∈ idxs, t < V.length) (i j : ℕ)
    (hi : i < idxs.length) (hj : j < idxs.length) :
    adjB E (idxs.map fun t => V.getD t default) i j =
      adjB E V (idxs.getD i 0) (idxs.getD j 0) := by
  have hti : idxs.getD i 0 < V.length := by
    apply hmem
    rw [getD_within idxs i hi]
    exact List.get_mem idxs i hi
  have htj : idxs.getD j 0 < V.length := by
    apply hmem
    rw [getD_within idxs j hj]
    exact List.get_mem idxs j hj
  have hmi : i < (idxs.map fun t => V.getD t default).length := by simpa using hi
  have hmj : j < (idxs.map fun t => V.getD t default).length := by simpa using hj
  have e1 : (idxs.map fun t => V.getD t default)[i]? =
      some (V.getD (idxs.getD i 0) default) := by
    rw [List.getElem?_eq_getElem hmi]
    congr 1
    rw [List.getElem_map]
    congr 1
    rw [getD_within idxs i hi, List.get_eq_getElem]
  have e2 : (idxs.map fun t => V.getD t default)[j]? =
      some (V.getD (idxs.getD j 0) default) := by
    rw [List.getElem?_eq_getElem hmj]
    congr 1
    rw [List.getElem_map]
    congr 1
    rw [getD_within idxs j hj, List.get_eq_getElem]
  have e3 : V[idxs.getD i 0]? = some (V.getD (idxs.getD i 0) default) := by
    rw [List.getElem?_eq_getElem hti]
    congr 1
    rw [getD_within V _ hti, List.get_eq_getElem]
  have e4 : V[idxs.getD j 0]? = some (V.getD (idxs.getD j 0) default) := by
    rw [List.getElem?_eq_getElem htj]
    congr 1
    rw [getD_within V _ htj, List.get_eq_getElem]
  unfold adjB
  rw [e1, e2, e3, e4]

theorem reach_transfer [Inhabited α] (E : α → α → Bool) (V : List α)
    (idxs : List ℕ) (hmem : ∀ t ∈ idxs, t < V.length) :
    ∀ m k j : ℕ, k < idxs.length →
      ((stepSet E (idxs.map fun t => V.getD t default))^[m]
        fun t => decide (t = k)) j = true →
      j < idxs.length ∧
        ((stepSet E V)^[m] fun t => decide (t = idxs.getD k 0))
          (idxs.getD j 0) = true := by
  intro m
  induction m with
  | zero =>
    intro k j hk hj
    rw [Function.iterate_zero_apply] at hj
    have hjk : j = k := of_decide_eq_true hj
    subst hjk
    refine ⟨hk, ?_⟩
    rw [Function.iterate_zero_apply]
    exact decide_eq_true rfl
  | succ m ih =>
    intro k j hk hj
    rw [Function.iterate_succ_apply'] at hj
    simp only [stepSet] at hj
    rcases Bool.or_eq_true_iff.mp hj with hj1 | hj2
    · obtain ⟨hjlt, hV⟩ := ih k j hk hj1
      refine ⟨hjlt, ?_⟩
      rw [Function.iterate_succ_apply']
      exact stepSet_le E V _ _ hV
    · obtain ⟨i, _hiRange, hcond⟩ := List.any_eq_true.mp hj2
      obtain ⟨hSi, hadj⟩ := Bool.and_eq_true_iff.mp hcond
      obtain ⟨hilt, hVi⟩ := ih k i hk hSi
      have hjU : j < (idxs.map fun t => V.getD t default).length :=
        (adjB_bound _ _ _ _ hadj).2
      have hjlt : j < idxs.length := by simpa using hjU
      have hadj' : adjB E V (idxs.getD i 0) (idxs.getD j 0) = true := by
        rw [← adjB_map_eq E V idxs hmem i j hilt hjlt]
        exact hadj
      refine ⟨hjlt, ?_⟩
      rw [Function.iterate_succ_apply']
      simp only [stepSet]
      apply Bool.or_eq_true_iff.mpr
      right
      apply List.any_eq_true.mpr
      refine ⟨idxs.getD i 0, ?_, ?_⟩
      · apply List.mem_range.mpr
        apply hmem
        rw [getD_within idxs i hilt]
        exact List.get_mem idxs i hilt
      · rw [Bool.and_eq_true_iff]
        exact ⟨hVi, hadj'⟩

/-- **C7.** Deduplication is size-idempotent: for every point set `V` and
equivalence predicate `E`, applying `get_unique_points` to its own output
returns a point set of the same size as after a single application. The
representatives of distinct components of `V` are pairwise unconnected
within the output (chains in the sub-point-set are chains in `V`), so the
second application keeps every point. -/
theorem getUniquePoints_idem_length [Inhabited α] (E : α → α → Bool)
    (V : List α) :
    (getUniquePoints E (getUniquePoints E V)).length =
      (getUniquePoints E V).length := by
  set idxs := (List.range V.length).filter (keepIdx E V) with hidxs
  set U := getUniquePoints E V with hU
  have hUdef : U = idxs.map fun t => V.getD t default := by
    rw [hU, getUniquePoints, ← hidxs]
  have hmem : ∀ t ∈ idxs, t < V.length := by
    intro t ht
    rw [hidxs] at ht
    exact List.mem_range.mp (List.mem_filter.mp ht).1
  have hkeep : ∀ t ∈ idxs, keepIdx E V t = true := by
    intro t ht
    rw [hidxs] at ht
    exact (List.mem_filter.mp ht).2
  have hpw : idxs.Pairwise (· < ·) := by
    rw [hidxs]
    exact List.Pairwise.sublist (List.filter_sublist _) (List.pairwise_lt_range _)
  have hUlen : U.length = idxs.length := by rw [hUdef, List.length_map]
  have hall : ∀ k ∈ List.range U.length, keepIdx E U k = true := by
    intro k hkr
    have hkU : k < U.length := List.mem_range.mp hkr
    have hk : k < idxs.length := hUlen ▸ hkU
    rw [keepIdx, List.all_eq_true]
    intro j hjr
    have hjk : j < k := List.mem_range.mp hjr
    cases hcb : connB E U k j
    · rfl
    · exfalso
      rw [hUdef, connB, reachSet] at hcb
      obtain ⟨hjlt, hV⟩ := reach_transfer E V idxs hmem
        (idxs.map fun t => V.getD t default).length k j hk hcb
      have hlen_le : (idxs.map fun t => V.getD t default).length ≤ V.length := by
        rw [List.length_map, hidxs]
        calc ((List.range V.length).filter (keepIdx E V)).length
            ≤ (List.range V.length).length := List.length_filter_le _ _
          _ = V.length := List.length_range _
      have hVfull : connB E V (idxs.getD k 0) (idxs.getD j 0) = true := by
        rw [connB, reachSet]
        exact iterate_stepSet_mono E V _ _ V.length hlen_le _ hV
      have hkmem : idxs.getD k 0 ∈ idxs := by
        rw [getD_within idxs k hk]
        exact List.get_mem idxs k hk
      have hkkeep := hkeep _ hkmem
      rw [keepIdx, List.all_eq_true] at hkkeep
      have hjk' : idxs.getD j 0 < idxs.getD k 0 := by
        rw [getD_within idxs j hjlt, getD_within idxs k hk,
          List.get_eq_getElem, List.get_eq_getElem]
        exact List.pairwise_iff_getElem.mp hpw j k hjlt hk hjk
      have hcontra := hkkeep (idxs.getD j 0) (List.mem_range.mpr hjk')
      rw [hVfull] at hcontra
      exact absurd hcontra (by simp)
  rw [getUniquePoints, List.filter_eq_self.mpr hall, List.length_map,
    List.length_range]

end Dedup

end DFibers
